import Mathlib

/-!
Consistent-hashing ring (`utils/ConsistentHashing.go`).

A shallow embedding of the Go package `utils`: the hash ring (`HashRing`), the
ring node (`HashRingNode`) and the ring state (`ConsistentHashing`) with its
operations `AddNode`, `RemoveNode`, `GetNode`, `GetNodeById`, `hashKey`, `getKey` and
`search`.

Conventions of the embedding
* a Go `string` is its sequence of bytes, a `List Nat` whose entries are byte
  values (`< 256`);
* a Go `uint32` is a `Nat` below `2 ^ 32`; a Go `int` is an `Int`;
* a Go `map[K]V` is an association list with at most one pair per key
  (`mapSet`, `mapDelete`, `mapGet?`);
* a run-time panic (index out of range) is the result `none`;
* the mutex only serialises calls, so every operation is a function on states.
-/

namespace utils

/-! ## Go built-ins used by the package -/

/-- Byte string of Go. -/
abbrev GoString := List Nat

/-- Look-up `m[k]` of a Go map, `none` when the key is absent. -/
def mapGet? {K V : Type} [DecidableEq K] : List (K × V) → K → Option V
  | [], _ => none
  | (k', v') :: m, k => if k' = k then some v' else mapGet? m k

/-- Assignment `m[k] = v` of a Go map: replaces the pair of `k`, or adds one. -/
def mapSet {K V : Type} [DecidableEq K] : List (K × V) → K → V → List (K × V)
  | [], k, v => [(k, v)]
  | (k', v') :: m, k, v => if k' = k then (k, v) :: m else (k', v') :: mapSet m k v

/-- Removal `delete(m, k)` of a Go map. -/
def mapDelete {K V : Type} [DecidableEq K] : List (K × V) → K → List (K × V)
  | [], _ => []
  | (k', v') :: m, k => if k' = k then mapDelete m k else (k', v') :: mapDelete m k

/-- Keys of a Go map. -/
def mapKeys {K V : Type} (m : List (K × V)) : List K := m.map Prod.fst

/-- One shift step of the reflected CRC-32 register (polynomial `0xEDB88320`). -/
def crcShift (r : Nat) : Nat :=
  if r % 2 = 1 then (r / 2) ^^^ 0xEDB88320 else r / 2

/-- Feed one byte into the CRC-32 register. -/
def crcFeed (r b : Nat) : Nat :=
  crcShift (crcShift (crcShift (crcShift (crcShift (crcShift (crcShift (crcShift
    (r ^^^ (b % 256)))))))))

/-- The function `crc32.ChecksumIEEE` of the Go standard library: CRC-32 with the
IEEE polynomial, register preset to all ones and complemented at the end. -/
def ChecksumIEEE (data : GoString) : Nat :=
  (data.foldl crcFeed 0xFFFFFFFF) ^^^ 0xFFFFFFFF

/-- The Unicode replacement character, Go's `utf8.RuneError`. -/
def RuneError : Nat := 0xFFFD

/-- UTF-8 encoding of a valid code point (Go's `encoderune`). -/
def encoderune (r : Nat) : GoString :=
  if r ≤ 0x7F then [r]
  else if r ≤ 0x7FF then [0xC0 ||| (r >>> 6), 0x80 ||| (r &&& 0x3F)]
  else if r ≤ 0xFFFF then
    [0xE0 ||| (r >>> 12), 0x80 ||| ((r >>> 6) &&& 0x3F), 0x80 ||| (r &&& 0x3F)]
  else
    [0xF0 ||| (r >>> 18), 0x80 ||| ((r >>> 12) &&& 0x3F), 0x80 ||| ((r >>> 6) &&& 0x3F),
      0x80 ||| (r &&& 0x3F)]

/-- The Go conversion `string(v)` of an integer `v`: the UTF-8 encoding of the code
point `v`, and of `RuneError` when `v` is not a valid code point (negative, above
`0x10FFFF`, or a surrogate). -/
def intstring (v : Int) : GoString :=
  if 0 ≤ v ∧ v ≤ 0x10FFFF ∧ ¬ (0xD800 ≤ v ∧ v ≤ 0xDFFF) then encoderune v.toNat
  else encoderune RuneError

/-- Binary-search loop of Go's `sort.Search`, on the half-open range `[i, j)`. -/
def searchLoop (f : Nat → Bool) (i j : Nat) : Nat :=
  if h : i < j then
    if !f ((i + j) / 2) then searchLoop f ((i + j) / 2 + 1) j
    else searchLoop f i ((i + j) / 2)
  else i
termination_by j - i
decreasing_by
  all_goals simp_wf
  all_goals omega

/-- Go's `sort.Search(n, f)`. -/
def sortSearch (n : Nat) (f : Nat → Bool) : Nat := searchLoop f 0 n

/-! ## The package -/

/-- The constant `DEFAULT_HASH_RING_REPLICAS`. -/
def DEFAULT_HASH_RING_REPLICAS : Nat := 100

/-- The type `HashRing`, a slice of `uint32`. -/
abbrev HashRing := List Nat

/-- The function `NewHashRing`. -/
def NewHashRing : HashRing := []

/-- The method `HashRing.Len`. -/
def HashRing.Len (this : HashRing) : Nat := this.length

/-- The method `HashRing.Less`; `Sort` only calls it with indices in range. -/
def HashRing.Less (this : HashRing) (i j : Nat) : Bool :=
  decide (this.getD i 0 < this.getD j 0)

/-- The function `Swap`; `Sort` only calls it with indices in range. -/
def Swap (this : HashRing) (i j : Nat) : HashRing :=
  (this.set i (this.getD j 0)).set j (this.getD i 0)

/-- Inner loop of `HashRing.Sort`: `for j := i; j < this.Len(); j++`. -/
def sortInner (this : HashRing) (i : Nat) : HashRing :=
  (List.range' i (this.Len - i)).foldl
    (fun a j => if a.Less i j then Swap a i j else a) this

/-- The method `HashRing.Sort`: `for i := 0; i < this.Len(); i++`. -/
def HashRing.Sort (this : HashRing) : HashRing :=
  (List.range this.Len).foldl sortInner this

/-- The struct `HashRingNode`. -/
structure HashRingNode where
  Id : Int
  IP : GoString
  Port : Int
  Weight : Int
deriving DecidableEq, Repr

/-- The function `NewHashRingNode` (the pointer is modelled by the value). -/
def NewHashRingNode (id : Int) (ip : GoString) (port : Int) (weight : Int) : HashRingNode :=
  { Id := id, IP := ip, Port := port, Weight := weight }

/-- The zero value `HashRingNode{}`, which a Go map returns for an absent key. -/
def zeroNode : HashRingNode := { Id := 0, IP := [], Port := 0, Weight := 0 }

/-- The struct `ConsistentHashing` without its mutex. -/
structure ConsistentHashing where
  Nodes : List (Nat × HashRingNode)
  reps : Nat
  resources : List (Int × Bool)
  ring : HashRing
deriving DecidableEq, Repr

/-- The function `NewConsistentHashing`. -/
def NewConsistentHashing : ConsistentHashing :=
  { Nodes := [], reps := DEFAULT_HASH_RING_REPLICAS, resources := [], ring := NewHashRing }

/-- The method `hashKey`. -/
def hashKey (key : GoString) : Nat := ChecksumIEEE key

/-- The method `getKey`: `node.IP + "*" + string(node.Port) + "*" + string(node.Weight)
+ "*" + string(idx)`; the byte of `*` is 42. -/
def getKey (node : HashRingNode) (idx : Int) : GoString :=
  node.IP ++ [42] ++ intstring node.Port ++ [42] ++ intstring node.Weight ++ [42]
    ++ intstring idx

/-- Body of the loop of `AddNode` for replica index `i`. -/
def addReplica (node : HashRingNode) (c : ConsistentHashing) (i : Nat) : ConsistentHashing :=
  { c with
    Nodes := mapSet c.Nodes (hashKey (getKey node i)) node
    ring := c.ring ++ [hashKey (getKey node i)] }

/-- The method `AddNode`: the state after the call and the returned boolean. -/
def AddNode (c : ConsistentHashing) (node : HashRingNode) : ConsistentHashing × Bool :=
  if (mapGet? c.resources node.Id).isSome then (c, false)
  else
    let c1 := { c with resources := mapSet c.resources node.Id true }
    let c2 := (List.range c1.reps).foldl (addReplica node) c1
    ({ c2 with ring := c2.ring.Sort }, true)

/-- Body of the loop of `RemoveNode` for replica index `i`. -/
def removeReplica (node : HashRingNode) (c : ConsistentHashing) (i : Nat) :
    ConsistentHashing :=
  { c with Nodes := mapDelete c.Nodes (hashKey (getKey node i)) }

/-- The method `RemoveNode`: the state after the call. -/
def RemoveNode (c : ConsistentHashing) (node : HashRingNode) : ConsistentHashing :=
  if (mapGet? c.resources node.Id).isSome then
    let c1 := { c with resources := mapDelete c.resources node.Id }
    let c2 := (List.range c1.reps).foldl (removeReplica node) c1
    { c2 with ring := c2.ring.Sort }
  else c

/-- The method `search`; the result is a Go `int`, `-1` on an empty ring. -/
def search (c : ConsistentHashing) (hash : Nat) : Int :=
  let i := sortSearch c.ring.length (fun i => decide (c.ring.getD i 0 ≥ hash))
  if i < c.ring.length then
    if (i : Int) = (c.ring.length : Int) - 1 then 0 else (i : Int)
  else (c.ring.length : Int) - 1

/-- Indexing `ring[i]` of a slice by a Go `int`: `none` is the index-out-of-range
panic. -/
def ringAt (ring : HashRing) (i : Int) : Option Nat :=
  if 0 ≤ i ∧ i < (ring.length : Int) then ring.get? i.toNat else none

/-- The method `GetNode`: `none` when the call panics. -/
def GetNode (c : ConsistentHashing) (key : GoString) : Option HashRingNode :=
  match ringAt c.ring (search c (hashKey key)) with
  | none => none
  | some h => some ((mapGet? c.Nodes h).getD zeroNode)

/-! ## States reached by the public operations -/

/-- States reachable from `NewConsistentHashing` by calls of `AddNode` and `RemoveNode`. -/
inductive Reachable : ConsistentHashing → Prop
  | new : Reachable NewConsistentHashing
  | add (c : ConsistentHashing) (node : HashRingNode) :
      Reachable c → Reachable (AddNode c node).1
  | remove (c : ConsistentHashing) (node : HashRingNode) :
      Reachable c → Reachable (RemoveNode c node)

/-- States built from `NewConsistentHashing` by one or more calls of `AddNode` only. -/
inductive Built : ConsistentHashing → Prop
  | first (node : HashRingNode) : Built (AddNode NewConsistentHashing node).1
  | add (c : ConsistentHashing) (node : HashRingNode) :
      Built c → Built (AddNode c node).1

/-! ## Successor lookup as the specification words it -/

/-- The successor position of the specification: the smallest ring hash that is `≥ h`,
and the smallest ring hash of all when no ring hash is `≥ h`. -/
def successorHash (ring : HashRing) (h : Nat) : Option Nat :=
  match (ring.filter (fun x => decide (h ≤ x))).min? with
  | some m => some m
  | none => ring.min?

/-- The node the mapping holds for the successor position of `hash(key)`. -/
def successorNode (c : ConsistentHashing) (key : GoString) : Option HashRingNode :=
  (successorHash c.ring (hashKey key)).map (fun h => (mapGet? c.Nodes h).getD zeroNode)

/-! ## Forms of the operations that evaluate quickly

`Sort` is replaced by the insertion sort for `≥` and the binary-search loop recurses on a
step bound; `AddNode_eq_eval`, `RemoveNode_eq_eval` and `GetNode_eq_eval` below prove
them equal to the operations of the package. -/

/-- One pass of the inner loop of `Sort` told on the elements: `x` is the entry at
position `i`, the list holds the entries behind it; every larger entry met is exchanged
with the one at position `i`. -/
def sweep : Nat → List Nat → Nat × List Nat
  | x, [] => (x, [])
  | x, y :: r =>
    if x < y then ((sweep y r).1, x :: (sweep y r).2)
    else ((sweep x r).1, y :: (sweep x r).2)

/-- The loop of `searchLoop` with a bound on the number of iterations. -/
def searchLoopFuel (f : Nat → Bool) : Nat → Nat → Nat → Nat
  | 0, i, _ => i
  | fuel + 1, i, j =>
    if i < j then
      if !f ((i + j) / 2) then searchLoopFuel f fuel ((i + j) / 2 + 1) j
      else searchLoopFuel f fuel i ((i + j) / 2)
    else i

/-- The operation `AddNode` with the insertion sort in place of `Sort`. -/
def AddNodeEval (c : ConsistentHashing) (node : HashRingNode) : ConsistentHashing × Bool :=
  if (mapGet? c.resources node.Id).isSome then (c, false)
  else
    let c1 := { c with resources := mapSet c.resources node.Id true }
    let c2 := (List.range c1.reps).foldl (addReplica node) c1
    ({ c2 with ring := c2.ring.insertionSort (fun a b => b ≤ a) }, true)

/-- The operation `RemoveNode` with the insertion sort in place of `Sort`. -/
def RemoveNodeEval (c : ConsistentHashing) (node : HashRingNode) : ConsistentHashing :=
  if (mapGet? c.resources node.Id).isSome then
    let c1 := { c with resources := mapDelete c.resources node.Id }
    let c2 := (List.range c1.reps).foldl (removeReplica node) c1
    { c2 with ring := c2.ring.insertionSort (fun a b => b ≤ a) }
  else c

/-- The operation `search` with the bounded loop. -/
def searchEval (c : ConsistentHashing) (hash : Nat) : Int :=
  let i := searchLoopFuel (fun i => decide (c.ring.getD i 0 ≥ hash)) c.ring.length 0
    c.ring.length
  if i < c.ring.length then
    if (i : Int) = (c.ring.length : Int) - 1 then 0 else (i : Int)
  else (c.ring.length : Int) - 1

/-- The operation `GetNode` over `searchEval`. -/
def GetNodeEval (c : ConsistentHashing) (key : GoString) : Option HashRingNode :=
  match ringAt c.ring (searchEval c (hashKey key)) with
  | none => none
  | some h => some ((mapGet? c.Nodes h).getD zeroNode)

/-! ## Concrete nodes and rings used in the examples -/

/-- Node 1 at `10.0.0.1`, port 80, weight 1. -/
def nodeA : HashRingNode := NewHashRingNode 1 [49, 48, 46, 48, 46, 48, 46, 49] 80 1

/-- Node 2 at `10.0.0.4`, port 80, weight 1. -/
def nodeB : HashRingNode := NewHashRingNode 2 [49, 48, 46, 48, 46, 48, 46, 52] 80 1

/-- Node 3 at `10.0.0.2`, port 80, weight 1. -/
def nodeC : HashRingNode := NewHashRingNode 3 [49, 48, 46, 48, 46, 48, 46, 50] 80 1

/-- The ring after `AddNode(nodeA)` on a new ring. -/
def ringA : ConsistentHashing := (AddNode NewConsistentHashing nodeA).1

/-- The ring after `AddNode(nodeA)` and `AddNode(nodeB)`. -/
def ringAB : ConsistentHashing := (AddNode ringA nodeB).1

/-- The ring after `AddNode(nodeA)`, `AddNode(nodeB)` and `AddNode(nodeC)`. -/
def ringABC : ConsistentHashing := (AddNode ringAB nodeC).1

/-! ## Further notions for the claims on the mapping -/

/-- The hashes `AddNode` and `RemoveNode` compute for `node` in a ring with `reps`
replicas, for the replica indices `0, ..., reps - 1`. -/
def replicaHashes (node : HashRingNode) (reps : Nat) : List Nat :=
  (List.range reps).map (fun i : Nat => hashKey (getKey node (i : Int)))

/-- The loop of `GetNodeById` over the entries of the mapping, taken in the order in
which `range c.Nodes` delivers them: the first entry whose node has the Id, and the zero
value when there is none. -/
def scanById : List (Nat × HashRingNode) → Int → HashRingNode
  | [], _ => zeroNode
  | (_, v) :: rest, id => if v.Id = id then v else scanById rest id

/-- The method `GetNodeById`. Go leaves the iteration order of a map unspecified, so
`r` is a result of the call when some order of the entries of `c.Nodes` yields it. -/
def GetNodeById (c : ConsistentHashing) (id : Int) (r : HashRingNode) : Prop :=
  ∃ order : List (Nat × HashRingNode), order.Perm c.Nodes ∧ scanById order id = r

/-- States reached from `NewConsistentHashing` by calls of `AddNode` and `RemoveNode` in
which every `RemoveNode` of a registered Id is given the node data that Id was added
with; the list holds the nodes registered in the state. -/
inductive Tracked : ConsistentHashing → List HashRingNode → Prop
  | new : Tracked NewConsistentHashing []
  | add (c : ConsistentHashing) (reg : List HashRingNode) (node : HashRingNode) :
      Tracked c reg → node.Id ∉ mapKeys c.resources →
      Tracked (AddNode c node).1 (node :: reg)
  | addAgain (c : ConsistentHashing) (reg : List HashRingNode) (node : HashRingNode) :
      Tracked c reg → node.Id ∈ mapKeys c.resources →
      Tracked (AddNode c node).1 reg
  | remove (c : ConsistentHashing) (reg : List HashRingNode) (node : HashRingNode) :
      Tracked c reg → node ∈ reg →
      Tracked (RemoveNode c node) (reg.filter (fun n => decide (n.Id ≠ node.Id)))
  | removeUnknown (c : ConsistentHashing) (reg : List HashRingNode) (node : HashRingNode) :
      Tracked c reg → node.Id ∉ mapKeys c.resources →
      Tracked (RemoveNode c node) reg

/-- States built from `NewConsistentHashing` by one or more calls of `AddNode` only; the
list holds the nodes passed to the calls, the latest first. -/
inductive BuiltFrom : List HashRingNode → ConsistentHashing → Prop
  | first (node : HashRingNode) : BuiltFrom [node] (AddNode NewConsistentHashing node).1
  | add (nodes : List HashRingNode) (c : ConsistentHashing) (node : HashRingNode) :
      BuiltFrom nodes c → BuiltFrom (node :: nodes) (AddNode c node).1

/-- Node 2 at the address, port and weight of `nodeA`. -/
def nodeA2 : HashRingNode := NewHashRingNode 2 [49, 48, 46, 48, 46, 48, 46, 49] 80 1

/-- Node 1 at `10.0.0.9`, port 80, weight 1: the Id of `nodeA` at another address. -/
def nodeA9 : HashRingNode := NewHashRingNode 1 [49, 48, 46, 48, 46, 48, 46, 57] 80 1

/-- Node 1 at `10.0.0.1`, port 56000, weight 1. -/
def nodeP : HashRingNode := NewHashRingNode 1 [49, 48, 46, 48, 46, 48, 46, 49] 56000 1

/-- Node 2 at `10.0.0.1`, port 57000, weight 1. -/
def nodeQ : HashRingNode := NewHashRingNode 2 [49, 48, 46, 48, 46, 48, 46, 49] 57000 1

/-- A ring state whose slice `10, 20, 30` is in ascending order. -/
def ringAscending : ConsistentHashing :=
  { Nodes := [], reps := DEFAULT_HASH_RING_REPLICAS, resources := [], ring := [10, 20, 30] }

/-- A ring state whose slice `5, 30, 10` is in no order. -/
def ringUnsorted : ConsistentHashing :=
  { Nodes := [], reps := DEFAULT_HASH_RING_REPLICAS, resources := [], ring := [5, 30, 10] }

/-- The loop of `sort.Search` run for at most `fuel` iterations: `none` when the loop
has not ended by then. -/
def searchLoopWithin (f : Nat → Bool) : Nat → Nat → Nat → Option Nat
  | 0, i, j => if i < j then none else some i
  | fuel + 1, i, j =>
    if i < j then
      if !f ((i + j) / 2) then searchLoopWithin f fuel ((i + j) / 2 + 1) j
      else searchLoopWithin f fuel i ((i + j) / 2)
    else some i

/-! ## `Sort` sorts into non-increasing order -/

theorem getD_at_length (p s : List Nat) (x : Nat) (n : Nat) (hn : n = p.length) :
    (p ++ x :: s).getD n 0 = x := by
  subst hn
  induction p with
  | nil => rfl
  | cons a p ih => simpa using ih

theorem set_at_length (p s : List Nat) (x z : Nat) (n : Nat) (hn : n = p.length) :
    (p ++ x :: s).set n z = p ++ z :: s := by
  subst hn
  induction p with
  | nil => rfl
  | cons a p ih => simp [ih]

theorem split_second (p d r : List Nat) (x y : Nat) :
    p ++ x :: (d ++ y :: r) = (p ++ x :: d) ++ y :: r := by simp

theorem Less_decomp (p d r : List Nat) (x y : Nat) :
    HashRing.Less (p ++ x :: (d ++ y :: r)) p.length (p.length + 1 + d.length)
      = decide (x < y) := by
  unfold HashRing.Less
  rw [getD_at_length p _ x _ rfl, split_second,
    getD_at_length (p ++ x :: d) r y _ (by simp; omega)]

theorem Swap_decomp (p d r : List Nat) (x y : Nat) :
    Swap (p ++ x :: (d ++ y :: r)) p.length (p.length + 1 + d.length)
      = p ++ y :: (d ++ x :: r) := by
  unfold Swap
  have hy : (p ++ x :: (d ++ y :: r)).getD (p.length + 1 + d.length) 0 = y := by
    rw [split_second, getD_at_length (p ++ x :: d) r y _ (by simp; omega)]
  rw [getD_at_length p _ x _ rfl, hy, set_at_length p _ x y _ rfl, split_second p d r y y,
    set_at_length (p ++ y :: d) r y x _ (by simp; omega)]
  simp

theorem sweep_inner (i : Nat) (r : List Nat) : ∀ (d p : List Nat) (x : Nat), p.length = i →
    (List.range' (i + 1 + d.length) r.length).foldl
        (fun a j => if HashRing.Less a i j then Swap a i j else a) (p ++ x :: (d ++ r))
      = p ++ (sweep x r).1 :: (d ++ (sweep x r).2) := by
  induction r with
  | nil => intro d p x _; simp [sweep]
  | cons y r ih =>
    intro d p x hp
    subst hp
    simp only [List.length_cons, List.range'_succ, List.foldl_cons, Less_decomp, Swap_decomp]
    by_cases hxy : x < y
    · have h := ih (d ++ [x]) p y rfl
      simp only [List.length_append, List.length_singleton, List.append_assoc,
        List.singleton_append] at h
      simp only [hxy, decide_True, if_true, sweep]
      rw [← h]
      congr 2
    · have h := ih (d ++ [y]) p x rfl
      simp only [List.length_append, List.length_singleton, List.append_assoc,
        List.singleton_append] at h
      simp only [hxy, decide_False, if_false, sweep]
      rw [← h]
      simp [Nat.add_assoc]

theorem sortInner_eq (p r : List Nat) (x : Nat) :
    sortInner (p ++ x :: r) p.length = p ++ (sweep x r).1 :: (sweep x r).2 := by
  unfold sortInner HashRing.Len
  have hlen : (p ++ x :: r).length - p.length = r.length + 1 := by simp
  rw [hlen, List.range'_succ, List.foldl_cons]
  have h0 : HashRing.Less (p ++ x :: r) p.length p.length = false := by
    simp [HashRing.Less]
  rw [h0]
  simpa using sweep_inner p.length r [] p x rfl

theorem sweep_length (r : List Nat) : ∀ x, (sweep x r).2.length = r.length := by
  induction r with
  | nil => intro x; rfl
  | cons y r ih =>
    intro x
    by_cases hxy : x < y <;> simp [sweep, hxy, ih]

theorem sweep_ge_self (r : List Nat) : ∀ x, x ≤ (sweep x r).1 := by
  induction r with
  | nil => intro x; exact Nat.le_refl _
  | cons y r ih =>
    intro x
    by_cases hxy : x < y
    · simp only [sweep, hxy, if_true]
      exact Nat.le_trans (Nat.le_of_lt hxy) (ih y)
    · simp only [sweep, hxy, if_false]
      exact ih x

theorem sweep_ge_rest (r : List Nat) : ∀ x, ∀ z ∈ (sweep x r).2, z ≤ (sweep x r).1 := by
  induction r with
  | nil => intro x z hz; simp [sweep] at hz
  | cons y r ih =>
    intro x z hz
    by_cases hxy : x < y
    · simp only [sweep, hxy, if_true, List.mem_cons] at hz ⊢
      rcases hz with rfl | hz
      · exact Nat.le_trans (Nat.le_of_lt hxy) (sweep_ge_self r y)
      · exact ih y z hz
    · simp only [sweep, hxy, if_false, List.mem_cons] at hz ⊢
      rcases hz with rfl | hz
      · exact Nat.le_trans (Nat.le_of_not_lt hxy) (sweep_ge_self r x)
      · exact ih x z hz

theorem sweep_perm (r : List Nat) : ∀ x, ((sweep x r).1 :: (sweep x r).2).Perm (x :: r) := by
  induction r with
  | nil => intro x; exact List.Perm.refl _
  | cons y r ih =>
    intro x
    by_cases hxy : x < y
    · simp only [sweep, hxy, if_true]
      exact (List.Perm.swap x _ _).trans ((ih y).cons x)
    · simp only [sweep, hxy, if_false]
      exact (List.Perm.swap y _ _).trans (((ih x).cons y).trans (List.Perm.swap x y r))

theorem sort_outer (n : Nat) : ∀ (s p : List Nat), s.length = n →
    ∃ t, (List.range' p.length n).foldl sortInner (p ++ s) = p ++ t ∧ t.Perm s ∧
      t.Pairwise (fun a b => b ≤ a) := by
  induction n with
  | zero =>
    intro s p hs
    exact ⟨s, by simp, List.Perm.refl _, by simp [List.length_eq_zero.mp hs]⟩
  | succ n ih =>
    intro s p hs
    match s, hs with
    | x :: r, hs =>
      have hr : (sweep x r).2.length = n := by
        rw [sweep_length]; simpa using hs
      obtain ⟨t, ht, hperm, hsorted⟩ := ih (sweep x r).2 (p ++ [(sweep x r).1]) hr
      refine ⟨(sweep x r).1 :: t, ?_, ?_, ?_⟩
      · rw [List.range'_succ, List.foldl_cons, sortInner_eq]
        simp only [List.length_append, List.length_singleton, List.append_assoc,
          List.singleton_append] at ht
        exact ht
      · exact (hperm.cons _).trans (sweep_perm r x)
      · refine List.Pairwise.cons ?_ hsorted
        intro z hz
        exact sweep_ge_rest r x z (hperm.subset hz)

/-- `Sort` leaves a permutation of its argument. -/
theorem Sort_perm (ring : HashRing) : (HashRing.Sort ring).Perm ring := by
  obtain ⟨t, ht, hperm, _⟩ := sort_outer ring.length ring [] rfl
  unfold HashRing.Sort HashRing.Len
  rw [List.range_eq_range']
  simp only [List.length_nil, List.nil_append] at ht
  rw [ht]; exact hperm

/-- `Sort` leaves the ring in non-increasing order. -/
theorem Sort_sorted (ring : HashRing) :
    (HashRing.Sort ring).Pairwise (fun a b => b ≤ a) := by
  obtain ⟨t, ht, _, hsorted⟩ := sort_outer ring.length ring [] rfl
  unfold HashRing.Sort HashRing.Len
  rw [List.range_eq_range']
  simp only [List.length_nil, List.nil_append] at ht
  rw [ht]; exact hsorted

/-- `Sort` computes the insertion sort for the order `≥`. -/
theorem Sort_eq_insertionSort (ring : HashRing) :
    HashRing.Sort ring = List.insertionSort (fun a b : Nat => b ≤ a) ring := by
  haveI : IsAntisymm Nat (fun a b : Nat => b ≤ a) := ⟨fun a b h1 h2 => Nat.le_antisymm h2 h1⟩
  haveI : IsTotal Nat (fun a b : Nat => b ≤ a) := ⟨fun a b => Nat.le_total b a⟩
  haveI : IsTrans Nat (fun a b : Nat => b ≤ a) := ⟨fun a b c h1 h2 => Nat.le_trans h2 h1⟩
  exact List.eq_of_perm_of_sorted
    ((Sort_perm ring).trans (List.perm_insertionSort _ ring).symm)
    (Sort_sorted ring) (List.sorted_insertionSort _ ring)

/-! ## Go maps -/

theorem mapGet?_isSome_iff {K V : Type} [DecidableEq K] (m : List (K × V)) (k : K) :
    (mapGet? m k).isSome = true ↔ k ∈ mapKeys m := by
  induction m with
  | nil => simp [mapGet?, mapKeys]
  | cons p m ih =>
    obtain ⟨k', v'⟩ := p
    by_cases hk : k' = k
    · simp [mapGet?, mapKeys, hk]
    · have hk' : ¬ k = k' := fun h => hk h.symm
      simpa [mapGet?, mapKeys, hk, hk'] using ih

theorem mem_mapKeys_mapSet {K V : Type} [DecidableEq K] (m : List (K × V)) (k : K) (v : V)
    (a : K) : a ∈ mapKeys (mapSet m k v) ↔ a ∈ mapKeys m ∨ a = k := by
  induction m with
  | nil => simp [mapSet, mapKeys]
  | cons p m ih =>
    obtain ⟨k', v'⟩ := p
    by_cases hk : k' = k
    · subst hk
      simp only [mapSet, if_true, mapKeys, List.map_cons, List.mem_cons]
      tauto
    · simp only [mapKeys, List.map_cons, List.mem_cons] at ih ⊢
      simp only [mapSet, hk, if_false, List.map_cons, List.mem_cons, ih]
      tauto

/-! ## The loops of `AddNode` and `RemoveNode` -/

theorem foldl_addReplica_resources (node : HashRingNode) (l : List Nat) :
    ∀ c : ConsistentHashing, (l.foldl (addReplica node) c).resources = c.resources := by
  induction l with
  | nil => intro c; rfl
  | cons i l ih => intro c; rw [List.foldl_cons, ih]; rfl

theorem foldl_addReplica_reps (node : HashRingNode) (l : List Nat) :
    ∀ c : ConsistentHashing, (l.foldl (addReplica node) c).reps = c.reps := by
  induction l with
  | nil => intro c; rfl
  | cons i l ih => intro c; rw [List.foldl_cons, ih]; rfl

theorem foldl_addReplica_ring_length (node : HashRingNode) (l : List Nat) :
    ∀ c : ConsistentHashing,
      (l.foldl (addReplica node) c).ring.length = c.ring.length + l.length := by
  induction l with
  | nil => intro c; rfl
  | cons i l ih =>
    intro c
    rw [List.foldl_cons, ih]
    simp [addReplica]
    omega

theorem foldl_removeReplica_ring (node : HashRingNode) (l : List Nat) :
    ∀ c : ConsistentHashing, (l.foldl (removeReplica node) c).ring = c.ring := by
  induction l with
  | nil => intro c; rfl
  | cons i l ih => intro c; rw [List.foldl_cons, ih]; rfl

theorem foldl_removeReplica_resources (node : HashRingNode) (l : List Nat) :
    ∀ c : ConsistentHashing, (l.foldl (removeReplica node) c).resources = c.resources := by
  induction l with
  | nil => intro c; rfl
  | cons i l ih => intro c; rw [List.foldl_cons, ih]; rfl

theorem Sort_length (ring : HashRing) : (HashRing.Sort ring).length = ring.length :=
  (Sort_perm ring).length_eq

/-- Adding an unregistered node and removing it at once leaves a ring slice that is
longer by `reps` entries: `RemoveNode` takes nothing out of the ring slice. -/
theorem ring_length_add_remove (c : ConsistentHashing) (node : HashRingNode)
    (h : node.Id ∉ mapKeys c.resources) :
    (RemoveNode (AddNode c node).1 node).ring.length = c.ring.length + c.reps := by
  have hsome : (mapGet? c.resources node.Id).isSome = false := by
    rw [Bool.eq_false_iff]
    exact fun hs => h ((mapGet?_isSome_iff _ _).mp hs)
  have hreg : (mapGet? (AddNode c node).1.resources node.Id).isSome = true := by
    rw [mapGet?_isSome_iff]
    simp only [AddNode, hsome, Bool.false_eq_true, if_false, foldl_addReplica_resources]
    exact (mem_mapKeys_mapSet _ _ _ _).mpr (Or.inr rfl)
  simp only [RemoveNode, hreg, if_true, Sort_length, foldl_removeReplica_ring]
  simp only [AddNode, hsome, Bool.false_eq_true, if_false, Sort_length,
    foldl_addReplica_ring_length, List.length_range]

/-! ## The evaluation forms agree with the package -/

theorem searchLoop_eq_fuel (f : Nat → Bool) :
    ∀ fuel i j : Nat, j - i ≤ fuel → searchLoop f i j = searchLoopFuel f fuel i j := by
  intro fuel
  induction fuel with
  | zero =>
    intro i j h
    have hij : ¬ i < j := by omega
    rw [searchLoop]
    simp [hij, searchLoopFuel]
  | succ fuel ih =>
    intro i j h
    rw [searchLoop]
    by_cases hij : i < j
    · simp only [hij, dite_true, if_true, searchLoopFuel]
      rw [ih ((i + j) / 2 + 1) j (by omega), ih i ((i + j) / 2) (by omega)]
    · simp [hij, searchLoopFuel]

theorem AddNode_eq_eval (c : ConsistentHashing) (node : HashRingNode) :
    AddNode c node = AddNodeEval c node := by
  simp only [AddNode, AddNodeEval, Sort_eq_insertionSort]

theorem RemoveNode_eq_eval (c : ConsistentHashing) (node : HashRingNode) :
    RemoveNode c node = RemoveNodeEval c node := by
  simp only [RemoveNode, RemoveNodeEval, Sort_eq_insertionSort]

theorem search_eq_eval (c : ConsistentHashing) (hash : Nat) :
    search c hash = searchEval c hash := by
  simp only [search, searchEval, sortSearch]
  rw [searchLoop_eq_fuel _ c.ring.length 0 c.ring.length (by omega)]

theorem GetNode_eq_eval (c : ConsistentHashing) (key : GoString) :
    GetNode c key = GetNodeEval c key := by
  simp only [GetNode, GetNodeEval, search_eq_eval]

/-- The check value of CRC-32: the checksum of the ASCII string `123456789`. -/
theorem ChecksumIEEE_check :
    ChecksumIEEE [49, 50, 51, 52, 53, 54, 55, 56, 57] = 0xCBF43926 := by
  decide!

/-! ## Claims about `AddNode` and `RemoveNode` -/

/-- C1: for every ring state and every node whose Id is already in the membership set,
`AddNode` returns false and leaves the state (ring slice, mapping, membership set and
replica count) exactly as it was. -/
theorem AddNode_registered (c : ConsistentHashing) (node : HashRingNode)
    (h : node.Id ∈ mapKeys c.resources) :
    (AddNode c node).2 = false ∧ (AddNode c node).1.ring = c.ring ∧
      (AddNode c node).1.Nodes = c.Nodes ∧ (AddNode c node).1.resources = c.resources ∧
      (AddNode c node).1 = c := by
  have hs : (mapGet? c.resources node.Id).isSome = true := (mapGet?_isSome_iff _ _).mpr h
  simp [AddNode, hs]

/-- Witness of C1: node 1 is registered in the ring that holds node 1. -/
theorem AddNode_registered_witness :
    nodeA.Id ∈ mapKeys ringA.resources ∧
      ((AddNode ringA nodeA).2 = false ∧ (AddNode ringA nodeA).1.ring = ringA.ring ∧
        (AddNode ringA nodeA).1.Nodes = ringA.Nodes ∧
        (AddNode ringA nodeA).1.resources = ringA.resources ∧
        (AddNode ringA nodeA).1 = ringA) :=
  have h : nodeA.Id ∈ mapKeys ringA.resources := by
    simp only [ringA, AddNode_eq_eval]
    decide!
  ⟨h, AddNode_registered ringA nodeA h⟩

/-- C2: for every ring state with replica count `reps` and every node whose Id is not
registered, whatever its weight, `AddNode` returns true, the ring slice gets longer by
exactly `reps` entries, the membership set becomes the old one plus exactly that Id, and
the replica count stays what it was, 100 from `NewConsistentHashing` on. -/
theorem AddNode_unregistered (c : ConsistentHashing) (node : HashRingNode)
    (h : node.Id ∉ mapKeys c.resources) :
    (AddNode c node).2 = true ∧
      (AddNode c node).1.ring.length = c.ring.length + c.reps ∧
      (∀ id : Int, id ∈ mapKeys (AddNode c node).1.resources ↔
        id ∈ mapKeys c.resources ∨ id = node.Id) ∧
      (AddNode c node).1.reps = c.reps ∧ NewConsistentHashing.reps = 100 := by
  have hs : (mapGet? c.resources node.Id).isSome = false := by
    rw [Bool.eq_false_iff]
    exact fun hs => h ((mapGet?_isSome_iff _ _).mp hs)
  refine ⟨?_, ?_, ?_, ?_, rfl⟩
  · simp [AddNode, hs]
  · simp only [AddNode, hs, Bool.false_eq_true, if_false, Sort_length,
      foldl_addReplica_ring_length, List.length_range]
  · intro id
    simp only [AddNode, hs, Bool.false_eq_true, if_false, foldl_addReplica_resources]
    exact mem_mapKeys_mapSet _ _ _ _
  · simp only [AddNode, hs, Bool.false_eq_true, if_false, foldl_addReplica_reps]

/-- Witness of C2: node 1 is not registered in a new ring. -/
theorem AddNode_unregistered_witness :
    nodeA.Id ∉ mapKeys NewConsistentHashing.resources ∧
      ((AddNode NewConsistentHashing nodeA).2 = true ∧
        (AddNode NewConsistentHashing nodeA).1.ring.length
          = NewConsistentHashing.ring.length + NewConsistentHashing.reps ∧
        (∀ id : Int, id ∈ mapKeys (AddNode NewConsistentHashing nodeA).1.resources ↔
          id ∈ mapKeys NewConsistentHashing.resources ∨ id = nodeA.Id) ∧
        (AddNode NewConsistentHashing nodeA).1.reps = NewConsistentHashing.reps ∧
        NewConsistentHashing.reps = 100) :=
  have h : nodeA.Id ∉ mapKeys NewConsistentHashing.resources := by
    simp [NewConsistentHashing, mapKeys]
  ⟨h, AddNode_unregistered NewConsistentHashing nodeA h⟩

/-- C3: for every ring state and every node whose Id is not in the membership set,
`RemoveNode` leaves the state (ring slice, mapping and membership set) exactly as it
was. -/
theorem RemoveNode_unregistered (c : ConsistentHashing) (node : HashRingNode)
    (h : node.Id ∉ mapKeys c.resources) :
    (RemoveNode c node).ring = c.ring ∧ (RemoveNode c node).Nodes = c.Nodes ∧
      (RemoveNode c node).resources = c.resources ∧ RemoveNode c node = c := by
  have hs : (mapGet? c.resources node.Id).isSome = false := by
    rw [Bool.eq_false_iff]
    exact fun hs => h ((mapGet?_isSome_iff _ _).mp hs)
  simp [RemoveNode, hs]

/-- Witness of C3: node 2 is not registered in the ring that holds node 1 only. -/
theorem RemoveNode_unregistered_witness :
    nodeB.Id ∉ mapKeys ringA.resources ∧
      ((RemoveNode ringA nodeB).ring = ringA.ring ∧
        (RemoveNode ringA nodeB).Nodes = ringA.Nodes ∧
        (RemoveNode ringA nodeB).resources = ringA.resources ∧
        RemoveNode ringA nodeB = ringA) :=
  have h : nodeB.Id ∉ mapKeys ringA.resources := by
    simp only [ringA, AddNode_eq_eval]
    decide!
  ⟨h, RemoveNode_unregistered ringA nodeB h⟩

/-! ## Claims about `GetNode` and the ring order -/

/-- C4 fails on the code: in the ring built by `AddNode(nodeA)` and `AddNode(nodeB)`
the key `a` (hash 3904355907) has the successor position 3935296180, a replica of node 1,
while `GetNode` answers node 2, the owner of the last ring slot. -/
theorem GetNode_not_successor :
    Built ringAB ∧ hashKey [97] = 3904355907 ∧
      successorHash ringAB.ring (hashKey [97]) = some 3935296180 ∧
      successorNode ringAB [97] = some nodeA ∧
      search ringAB (hashKey [97]) = 199 ∧
      GetNode ringAB [97] = some nodeB ∧
      GetNode ringAB [97] ≠ successorNode ringAB [97] := by
  refine ⟨Built.add _ _ (Built.first _), ?_⟩
  simp only [ringAB, ringA, AddNode_eq_eval, GetNode_eq_eval, search_eq_eval]
  decide!

/-- C5 fails on the code: on a new ring `search` returns `-1` for every key, the slice
is indexed at `-1`, out of range, and `GetNode` panics. -/
theorem GetNode_new_ring_panics (key : GoString) :
    search NewConsistentHashing (hashKey key) = -1 ∧
      ringAt NewConsistentHashing.ring (search NewConsistentHashing (hashKey key)) = none ∧
      GetNode NewConsistentHashing key = none := by
  have hs : search NewConsistentHashing (hashKey key) = -1 := by
    simp only [search_eq_eval]
    rfl
  refine ⟨hs, ?_, ?_⟩
  · rw [hs]; rfl
  · simp only [GetNode, hs]; rfl

/-- C6 fails on the code: after `AddNode(nodeA)` on a new ring the ring slice starts
with 4283824125, 4270753531: `Sort` leaves it in descending order, so it is not sorted
ascending. -/
theorem ring_not_ascending :
    Reachable ringA ∧ ringA.ring.take 2 = [4283824125, 4270753531] ∧
      ¬ ringA.ring.Pairwise (fun a b => a < b) := by
  refine ⟨Reachable.add _ _ Reachable.new, ?_⟩
  simp only [ringA, AddNode_eq_eval]
  decide!

/-- C7 fails on the code: `AddNode(nodeA)` followed by `RemoveNode(nodeA)` on a new
ring leaves a ring slice of 100 entries where there were none. -/
theorem add_remove_keeps_ring_entries :
    nodeA.Id ∉ mapKeys NewConsistentHashing.resources ∧
      NewConsistentHashing.ring.length = 0 ∧
      (RemoveNode (AddNode NewConsistentHashing nodeA).1 nodeA).ring.length = 100 :=
  ⟨by simp [NewConsistentHashing, mapKeys], rfl,
    ring_length_add_remove NewConsistentHashing nodeA (by simp [NewConsistentHashing, mapKeys])⟩

/-- C8 fails on the code: after `AddNode(nodeA)` and `RemoveNode(nodeA)` the ring slice
still holds the hash 4283824125, whose mapping entry was deleted. -/
theorem ring_hash_without_mapping_entry :
    Reachable (RemoveNode ringA nodeA) ∧
      4283824125 ∈ (RemoveNode ringA nodeA).ring ∧
      mapGet? (RemoveNode ringA nodeA).Nodes 4283824125 = none ∧
      (RemoveNode ringA nodeA).Nodes = [] := by
  refine ⟨Reachable.remove _ _ (Reachable.add _ _ Reachable.new), ?_⟩
  simp only [ringA, AddNode_eq_eval, RemoveNode_eq_eval]
  decide!

/-- C9 fails on the code: after `AddNode(nodeA)`, `AddNode(nodeB)` and
`RemoveNode(nodeB)` node 1 is registered, and `GetNode` answers the key `alpha` with the
zero-valued node, whose Id 0 is not registered. -/
theorem GetNode_answers_removed_slot :
    Reachable (RemoveNode ringAB nodeB) ∧
      mapKeys (RemoveNode ringAB nodeB).resources = [1] ∧
      GetNode (RemoveNode ringAB nodeB) [97, 108, 112, 104, 97] = some zeroNode ∧
      zeroNode.Id ∉ mapKeys (RemoveNode ringAB nodeB).resources := by
  refine ⟨Reachable.remove _ _ (Reachable.add _ _ (Reachable.add _ _ Reachable.new)), ?_⟩
  simp only [ringAB, ringA, AddNode_eq_eval, RemoveNode_eq_eval, GetNode_eq_eval]
  decide!

/-- C10 fails on the code: in the ring of nodes 1 and 2 the key `j` belongs to node 2;
after `AddNode(nodeC)`, node 3 with an unregistered Id, it belongs to node 1: the key
moved from one old node to the other. -/
theorem GetNode_moves_between_old_nodes :
    Built ringAB ∧ nodeC.Id ∉ mapKeys ringAB.resources ∧
      GetNode ringAB [106] = some nodeB ∧
      GetNode (AddNode ringAB nodeC).1 [106] = some nodeA ∧
      nodeA ≠ nodeB ∧ nodeA ≠ nodeC := by
  refine ⟨Built.add _ _ (Built.first _), ?_⟩
  simp only [ringAB, ringA, AddNode_eq_eval, GetNode_eq_eval]
  decide!

/-! ## The binary search of `sort.Search` -/

/-- The loop of `sort.Search` stays inside its range. -/
theorem searchLoop_bounds (f : Nat → Bool) :
    ∀ n i j : Nat, j - i ≤ n → i ≤ j → i ≤ searchLoop f i j ∧ searchLoop f i j ≤ j := by
  intro n
  induction n with
  | zero =>
    intro i j h hij
    have hlt : ¬ i < j := by omega
    rw [searchLoop]
    simp only [hlt, dite_false]
    omega
  | succ n ih =>
    intro i j h hij
    rw [searchLoop]
    by_cases hlt : i < j
    · simp only [hlt, dite_true]
      by_cases hf : f ((i + j) / 2) = true
      · simp only [hf, Bool.not_true, Bool.false_eq_true, if_false]
        have := ih i ((i + j) / 2) (by omega) (by omega)
        omega
      · simp only [Bool.not_eq_true] at hf
        simp only [hf, Bool.not_false, if_true]
        have := ih ((i + j) / 2 + 1) j (by omega) (by omega)
        omega
    · simp only [hlt, dite_false]
      omega

/-- On a range where the predicate is false below `t` and true from `t` on, the loop of
`sort.Search` ends at `t`. -/
theorem searchLoop_spec (f : Nat → Bool) (t : Nat) :
    ∀ n i j : Nat, j - i ≤ n → i ≤ t → t ≤ j →
      (∀ k, i ≤ k → k < t → f k = false) → (∀ k, t ≤ k → k < j → f k = true) →
      searchLoop f i j = t := by
  intro n
  induction n with
  | zero =>
    intro i j h hit htj _ _
    have hlt : ¬ i < j := by omega
    rw [searchLoop]
    simp only [hlt, dite_false]
    omega
  | succ n ih =>
    intro i j h hit htj hlo hhi
    rw [searchLoop]
    by_cases hlt : i < j
    · simp only [hlt, dite_true]
      by_cases hf : f ((i + j) / 2) = true
      · simp only [hf, Bool.not_true, Bool.false_eq_true, if_false]
        have hmid : t ≤ (i + j) / 2 := by
          by_contra hc
          have := hlo ((i + j) / 2) (by omega) (by omega)
          rw [this] at hf
          exact Bool.false_ne_true hf
        exact ih i ((i + j) / 2) (by omega) hit hmid hlo
          (fun k hk1 hk2 => hhi k hk1 (by omega))
      · simp only [Bool.not_eq_true] at hf
        simp only [hf, Bool.not_false, if_true]
        have hmid : (i + j) / 2 < t := by
          by_contra hc
          have := hhi ((i + j) / 2) (by omega) (by omega)
          rw [this] at hf
          exact Bool.false_ne_true hf.symm
        exact ih ((i + j) / 2 + 1) j (by omega) (by omega) htj
          (fun k hk1 hk2 => hlo k (by omega) hk2) hhi
    · simp only [hlt, dite_false]
      omega

theorem pairwise_getD (R : Nat → Nat → Prop) (l : List Nat) (h : l.Pairwise R) (i j : Nat)
    (hij : i < j) (hj : j < l.length) : R (l.getD i 0) (l.getD j 0) := by
  have hi : i < l.length := Nat.lt_trans hij hj
  rw [List.getD_eq_getElem l 0 hi, List.getD_eq_getElem l 0 hj]
  exact (List.pairwise_iff_getElem.mp h) i j hi hj hij

/-- The index `search` returns lies in the ring slice as soon as the slice is not empty. -/
theorem search_range (c : ConsistentHashing) (hash : Nat) (hne : c.ring ≠ []) :
    0 ≤ search c hash ∧ search c hash < (c.ring.length : Int) := by
  have hpos : 0 < c.ring.length := List.length_pos.mpr hne
  simp only [search]
  split_ifs <;> omega

theorem ringAt_of_range (ring : HashRing) (i : Int) (h0 : 0 ≤ i)
    (h1 : i < (ring.length : Int)) : ∃ h, ringAt ring i = some h ∧ h ∈ ring := by
  have hlt : i.toNat < ring.length := by omega
  refine ⟨ring[i.toNat], ?_, List.getElem_mem _⟩
  simp only [ringAt, h0, h1, and_self, if_true, List.get?_eq_getElem?]
  exact List.getElem?_eq_getElem hlt

theorem ringAt_natCast (ring : HashRing) (n : Nat) (h : n < ring.length) :
    ringAt ring (n : Int) = some (ring.getD n 0) := by
  have h1 : (n : Int) < (ring.length : Int) := by omega
  simp only [ringAt, Int.natCast_nonneg, h1, and_self, if_true, Int.toNat_ofNat,
    List.get?_eq_getElem?]
  rw [List.getD_eq_getElem ring 0 h]
  exact List.getElem?_eq_getElem h

/-- The value of `search` on a non-empty ring slice in non-increasing order. -/
theorem search_of_descending (c : ConsistentHashing) (hash : Nat) (hne : c.ring ≠ [])
    (hs : c.ring.Pairwise (fun a b => b ≤ a)) :
    search c hash =
      if hash ≤ c.ring.getD (c.ring.length / 2) 0 then 0 else (c.ring.length : Int) - 1 := by
  have hpos : 0 < c.ring.length := List.length_pos.mpr hne
  have hmidlt : c.ring.length / 2 < c.ring.length := by omega
  by_cases hmid : hash ≤ c.ring.getD (c.ring.length / 2) 0
  · have hsearch :
        sortSearch c.ring.length (fun k => decide (c.ring.getD k 0 ≥ hash)) = 0 := by
      unfold sortSearch
      rw [searchLoop]
      have hf : (fun k => decide (c.ring.getD k 0 ≥ hash)) ((0 + c.ring.length) / 2) = true := by
        simpa using hmid
      simp only [hpos, dite_true, hf, Bool.not_true, Bool.false_eq_true, if_false]
      apply searchLoop_spec _ 0 _ 0 _ (Nat.le_refl _) (by omega) (by omega)
      · intro k _ hk; omega
      · intro k _ hk
        simp only [Nat.zero_add] at hk
        simp only [ge_iff_le, decide_eq_true_eq]
        exact Nat.le_trans hmid (pairwise_getD _ _ hs k _ hk hmidlt)
    simp only [search, hsearch, hpos, if_true, hmid]
    split_ifs <;> simp
  · have hsearch :
        sortSearch c.ring.length (fun k => decide (c.ring.getD k 0 ≥ hash))
          = c.ring.length := by
      unfold sortSearch
      rw [searchLoop]
      have hf : (fun k => decide (c.ring.getD k 0 ≥ hash)) ((0 + c.ring.length) / 2) = false := by
        simpa using hmid
      simp only [hpos, dite_true, hf, Bool.not_false, if_true]
      apply searchLoop_spec _ c.ring.length _ _ _ (Nat.le_refl _) (by omega) (by omega)
      · intro k hk hkn
        simp only [Nat.zero_add] at hk
        simp only [ge_iff_le, decide_eq_false_iff_not, not_le]
        have := pairwise_getD _ _ hs (c.ring.length / 2) k (by omega) hkn
        omega
      · intro k hk hkn; omega
    simp only [search, hsearch, Nat.lt_irrefl, if_false, hmid]

/-! ## The effect of `AddNode` and `RemoveNode` field by field -/

theorem isSome_eq_false_of_not_mem {K V : Type} [DecidableEq K] (m : List (K × V)) (k : K)
    (h : k ∉ mapKeys m) : (mapGet? m k).isSome = false := by
  rw [Bool.eq_false_iff]
  exact fun hs => h ((mapGet?_isSome_iff _ _).mp hs)

theorem foldl_addReplica_ring (node : HashRingNode) (l : List Nat) :
    ∀ c : ConsistentHashing, (l.foldl (addReplica node) c).ring
      = c.ring ++ l.map (fun i : Nat => hashKey (getKey node (i : Int))) := by
  induction l with
  | nil => intro c; simp
  | cons i l ih => intro c; rw [List.foldl_cons, ih]; simp [addReplica]

theorem foldl_addReplica_Nodes (node : HashRingNode) (l : List Nat) :
    ∀ c : ConsistentHashing, (l.foldl (addReplica node) c).Nodes
      = (l.map (fun i : Nat => hashKey (getKey node (i : Int)))).foldl (fun m h => mapSet m h node)
          c.Nodes := by
  induction l with
  | nil => intro c; rfl
  | cons i l ih => intro c; rw [List.foldl_cons, ih]; rfl

theorem foldl_removeReplica_Nodes (node : HashRingNode) (l : List Nat) :
    ∀ c : ConsistentHashing, (l.foldl (removeReplica node) c).Nodes
      = (l.map (fun i : Nat => hashKey (getKey node (i : Int)))).foldl (fun m h => mapDelete m h)
          c.Nodes := by
  induction l with
  | nil => intro c; rfl
  | cons i l ih => intro c; rw [List.foldl_cons, ih]; rfl

theorem foldl_removeReplica_reps (node : HashRingNode) (l : List Nat) :
    ∀ c : ConsistentHashing, (l.foldl (removeReplica node) c).reps = c.reps := by
  induction l with
  | nil => intro c; rfl
  | cons i l ih => intro c; rw [List.foldl_cons, ih]; rfl

theorem AddNode_of_present (c : ConsistentHashing) (node : HashRingNode)
    (h : (mapGet? c.resources node.Id).isSome = true) : AddNode c node = (c, false) := by
  simp only [AddNode, h, if_true]

theorem AddNode_ring_of_absent (c : ConsistentHashing) (node : HashRingNode)
    (h : (mapGet? c.resources node.Id).isSome = false) :
    (AddNode c node).1.ring = HashRing.Sort (c.ring ++ replicaHashes node c.reps) := by
  simp only [AddNode, h, Bool.false_eq_true, if_false, foldl_addReplica_ring, replicaHashes]

theorem AddNode_Nodes_of_absent (c : ConsistentHashing) (node : HashRingNode)
    (h : (mapGet? c.resources node.Id).isSome = false) :
    (AddNode c node).1.Nodes
      = (replicaHashes node c.reps).foldl (fun m h => mapSet m h node) c.Nodes := by
  simp only [AddNode, h, Bool.false_eq_true, if_false, foldl_addReplica_Nodes, replicaHashes]

theorem AddNode_resources_of_absent (c : ConsistentHashing) (node : HashRingNode)
    (h : (mapGet? c.resources node.Id).isSome = false) :
    (AddNode c node).1.resources = mapSet c.resources node.Id true := by
  simp only [AddNode, h, Bool.false_eq_true, if_false, foldl_addReplica_resources]

theorem AddNode_reps (c : ConsistentHashing) (node : HashRingNode) :
    (AddNode c node).1.reps = c.reps := by
  by_cases h : (mapGet? c.resources node.Id).isSome = true
  · simp only [AddNode, h, if_true]
  · rw [Bool.not_eq_true] at h
    simp only [AddNode, h, Bool.false_eq_true, if_false, foldl_addReplica_reps]

theorem RemoveNode_of_absent (c : ConsistentHashing) (node : HashRingNode)
    (h : (mapGet? c.resources node.Id).isSome = false) : RemoveNode c node = c := by
  simp only [RemoveNode, h, Bool.false_eq_true, if_false]

theorem RemoveNode_Nodes_of_present (c : ConsistentHashing) (node : HashRingNode)
    (h : (mapGet? c.resources node.Id).isSome = true) :
    (RemoveNode c node).Nodes
      = (replicaHashes node c.reps).foldl (fun m h => mapDelete m h) c.Nodes := by
  simp only [RemoveNode, h, if_true, foldl_removeReplica_Nodes, replicaHashes]

theorem RemoveNode_resources_of_present (c : ConsistentHashing) (node : HashRingNode)
    (h : (mapGet? c.resources node.Id).isSome = true) :
    (RemoveNode c node).resources = mapDelete c.resources node.Id := by
  simp only [RemoveNode, h, if_true, foldl_removeReplica_resources]

theorem RemoveNode_reps (c : ConsistentHashing) (node : HashRingNode) :
    (RemoveNode c node).reps = c.reps := by
  by_cases h : (mapGet? c.resources node.Id).isSome = true
  · simp only [RemoveNode, h, if_true, foldl_removeReplica_reps]
  · rw [Bool.not_eq_true] at h
    simp only [RemoveNode, h, Bool.false_eq_true, if_false]

/-- The loop of `sort.Search` on `[i, j)` ends within `j - i` iterations. -/
theorem searchLoop_within (f : Nat → Bool) :
    ∀ fuel i j : Nat, j - i ≤ fuel →
      searchLoopWithin f fuel i j = some (searchLoop f i j) := by
  intro fuel
  induction fuel with
  | zero =>
    intro i j h
    have hij : ¬ i < j := by omega
    rw [searchLoop]
    simp [hij, searchLoopWithin]
  | succ fuel ih =>
    intro i j h
    rw [searchLoop]
    by_cases hij : i < j
    · simp only [hij, dite_true, if_true, searchLoopWithin]
      rw [ih ((i + j) / 2 + 1) j (by omega), ih i ((i + j) / 2) (by omega)]
      split_ifs <;> rfl
    · simp [hij, searchLoopWithin]

theorem mapGet?_mapDelete_self {K V : Type} [DecidableEq K] (m : List (K × V)) (k : K) :
    mapGet? (mapDelete m k) k = none := by
  induction m with
  | nil => rfl
  | cons p m ih =>
    obtain ⟨k', v'⟩ := p
    by_cases hk : k' = k
    · simp only [mapDelete, hk, if_true, ih]
    · simp only [mapDelete, hk, if_false, mapGet?, ih]

/-! ## Claims about `RemoveNode`, `search`, `getKey` and `Sort` -/

/-- C12: `RemoveNode` is idempotent: for every ring state and every node, two calls of
`RemoveNode(node)` leave the same state (ring slice, mapping, membership set) as one. -/
theorem RemoveNode_idempotent (c : ConsistentHashing) (node : HashRingNode) :
    RemoveNode (RemoveNode c node) node = RemoveNode c node ∧
      (RemoveNode (RemoveNode c node) node).ring = (RemoveNode c node).ring ∧
      (RemoveNode (RemoveNode c node) node).Nodes = (RemoveNode c node).Nodes ∧
      (RemoveNode (RemoveNode c node) node).resources = (RemoveNode c node).resources := by
  have h : RemoveNode (RemoveNode c node) node = RemoveNode c node := by
    by_cases hs : (mapGet? c.resources node.Id).isSome = true
    · apply RemoveNode_of_absent
      rw [RemoveNode_resources_of_present c node hs, mapGet?_mapDelete_self]
      rfl
    · rw [Bool.not_eq_true] at hs
      rw [RemoveNode_of_absent c node hs, RemoveNode_of_absent c node hs]
  exact ⟨h, by rw [h], by rw [h], by rw [h]⟩

/-- C15: for every ring slice sorted ascending and every hash for which some entry is
`≥ hash`, with `i` the smallest index whose entry is `≥ hash`, `search` returns `i` when
`i` is not the last index and `0` when it is. -/
theorem search_ascending (c : ConsistentHashing) (hash i : Nat)
    (hs : c.ring.Pairwise (fun a b => a ≤ b)) (hi : i < c.ring.length)
    (hge : hash ≤ c.ring.getD i 0) (hmin : ∀ k, k < i → c.ring.getD k 0 < hash) :
    search c hash = if i = c.ring.length - 1 then 0 else (i : Int) := by
  have hsearch : sortSearch c.ring.length (fun k => decide (c.ring.getD k 0 ≥ hash)) = i := by
    unfold sortSearch
    apply searchLoop_spec _ i c.ring.length 0 c.ring.length (by omega) (by omega) (by omega)
    · intro k _ hk
      have := hmin k hk
      simp only [ge_iff_le, decide_eq_false_iff_not, not_le]
      exact this
    · intro k hk hkn
      simp only [ge_iff_le, decide_eq_true_eq]
      rcases Nat.eq_or_lt_of_le hk with heq | hlt
      · rw [← heq]; exact hge
      · exact Nat.le_trans hge (pairwise_getD _ _ hs i k hlt hkn)
  simp only [search, hsearch, hi, if_true]
  by_cases hlast : i = c.ring.length - 1
  · have hcast : (i : Int) = (c.ring.length : Int) - 1 := by omega
    rw [if_pos hcast, if_pos hlast]
  · have hcast : ¬ (i : Int) = (c.ring.length : Int) - 1 := by omega
    rw [if_neg hcast, if_neg hlast]

/-- Witness of C15 on the slice `10, 20, 30`: the hash 15 has its successor at index 1,
not the last, and `search` returns 1. -/
theorem search_ascending_witness :
    ringAscending.ring.Pairwise (fun a b => a ≤ b) ∧
      search ringAscending 15 = if 1 = ringAscending.ring.length - 1 then 0 else ((1 : Nat) : Int) :=
  ⟨by decide,
    search_ascending ringAscending 15 1 (by decide) (by decide) (by decide)
      (by intro k hk; interval_cases k; decide)⟩

/-- C16 fails on the code: the nodes at `10.0.0.1` with ports 56000 and 57000 get the
same replica key, as `string(Port)` turns every surrogate code point into `U+FFFD`. -/
theorem getKey_same_for_two_ports :
    nodeP.IP = nodeQ.IP ∧ nodeP.Weight = nodeQ.Weight ∧ nodeP.Port = 56000 ∧
      nodeQ.Port = 57000 ∧ intstring 56000 = [239, 191, 189] ∧
      intstring 57000 = [239, 191, 189] ∧ getKey nodeP 0 = getKey nodeQ 0 := by
  decide

/-- C17: for every ring slice, `Sort` leaves a permutation of the entries, of the same
length, in non-increasing order: the entry at `i` is `≥` the entry at `j` for `i ≤ j`. -/
theorem Sort_permutation_nonincreasing (ring : HashRing) :
    (HashRing.Sort ring).Perm ring ∧ (HashRing.Sort ring).length = ring.length ∧
      (HashRing.Sort ring).Pairwise (fun a b => b ≤ a) ∧
      ∀ i j : Nat, i ≤ j → j < (HashRing.Sort ring).length →
        (HashRing.Sort ring).getD j 0 ≤ (HashRing.Sort ring).getD i 0 := by
  refine ⟨Sort_perm ring, Sort_length ring, Sort_sorted ring, ?_⟩
  intro i j hij hj
  rcases Nat.eq_or_lt_of_le hij with heq | hlt
  · rw [heq]
  · exact pairwise_getD _ _ (Sort_sorted ring) i j hlt hj

/-- C18: for every non-empty ring slice in non-increasing order and every hash,
`search` returns `0` when the middle entry `ring[len / 2]` is `≥ hash` and `len - 1`
otherwise, so `GetNode` answers every key from the first or from the last ring slot. -/
theorem search_descending (c : ConsistentHashing) (hne : c.ring ≠ [])
    (hs : c.ring.Pairwise (fun a b => b ≤ a)) :
    (∀ hash : Nat, search c hash =
        if hash ≤ c.ring.getD (c.ring.length / 2) 0 then 0 else (c.ring.length : Int) - 1) ∧
      ∀ key : GoString,
        GetNode c key = some ((mapGet? c.Nodes (c.ring.getD 0 0)).getD zeroNode) ∨
        GetNode c key =
          some ((mapGet? c.Nodes (c.ring.getD (c.ring.length - 1) 0)).getD zeroNode) := by
  have hpos : 0 < c.ring.length := List.length_pos.mpr hne
  refine ⟨fun hash => search_of_descending c hash hne hs, ?_⟩
  intro key
  have hsearch := search_of_descending c (hashKey key) hne hs
  by_cases hmid : hashKey key ≤ c.ring.getD (c.ring.length / 2) 0
  · left
    rw [if_pos hmid] at hsearch
    have hat := ringAt_natCast c.ring 0 hpos
    simp only [Nat.cast_zero] at hat
    simp only [GetNode, hsearch, hat]
  · right
    rw [if_neg hmid] at hsearch
    have hat := ringAt_natCast c.ring (c.ring.length - 1) (by omega)
    have hcast : ((c.ring.length - 1 : Nat) : Int) = (c.ring.length : Int) - 1 := by omega
    rw [hcast] at hat
    simp only [GetNode, hsearch, hat]

/-- Witness of C18: the ring slice after `AddNode(nodeA)` is not empty and in
non-increasing order. -/
theorem search_descending_witness :
    ringA.ring ≠ [] ∧ ringA.ring.Pairwise (fun a b => b ≤ a) ∧
      ((∀ hash : Nat, search ringA hash =
          if hash ≤ ringA.ring.getD (ringA.ring.length / 2) 0 then 0
          else (ringA.ring.length : Int) - 1) ∧
        ∀ key : GoString,
          GetNode ringA key = some ((mapGet? ringA.Nodes (ringA.ring.getD 0 0)).getD zeroNode) ∨
          GetNode ringA key =
            some ((mapGet? ringA.Nodes
              (ringA.ring.getD (ringA.ring.length - 1) 0)).getD zeroNode)) :=
  have hne : ringA.ring ≠ [] := by
    simp only [ringA, AddNode_eq_eval]
    decide!
  have hs : ringA.ring.Pairwise (fun a b => b ≤ a) := by
    simp only [ringA, AddNode_eq_eval]
    decide!
  ⟨hne, hs, search_descending ringA hne hs⟩

/-- C19: for every non-empty ring slice, sorted or not, and every hash, the binary
search ends within `len` iterations and `search` returns an index `i` with
`0 ≤ i < len`, so the indexing `ring[i]` in `GetNode` is in range and `GetNode` returns
the mapping's value for that entry. -/
theorem search_index_in_range (c : ConsistentHashing) (hne : c.ring ≠ []) :
    ∀ hash : Nat,
      searchLoopWithin (fun i => decide (c.ring.getD i 0 ≥ hash)) c.ring.length 0 c.ring.length
          = some (sortSearch c.ring.length (fun i => decide (c.ring.getD i 0 ≥ hash))) ∧
        0 ≤ search c hash ∧ search c hash < (c.ring.length : Int) ∧
        ∃ h, h ∈ c.ring ∧ ringAt c.ring (search c hash) = some h ∧
          ∀ key : GoString, hashKey key = hash →
            GetNode c key = some ((mapGet? c.Nodes h).getD zeroNode) := by
  intro hash
  obtain ⟨h0, h1⟩ := search_range c hash hne
  obtain ⟨h, hat, hmem⟩ := ringAt_of_range c.ring (search c hash) h0 h1
  refine ⟨searchLoop_within _ _ 0 _ (by omega), h0, h1, h, hmem, hat, ?_⟩
  intro key hkey
  simp only [GetNode, hkey, hat]

/-- Witness of C19 on the slice `5, 30, 10`, which is in no order. -/
theorem search_index_in_range_witness :
    ringUnsorted.ring ≠ [] ∧
      ∀ hash : Nat,
        searchLoopWithin (fun i => decide (ringUnsorted.ring.getD i 0 ≥ hash))
            ringUnsorted.ring.length 0 ringUnsorted.ring.length
          = some (sortSearch ringUnsorted.ring.length
              (fun i => decide (ringUnsorted.ring.getD i 0 ≥ hash))) ∧
        0 ≤ search ringUnsorted hash ∧ search ringUnsorted hash < (ringUnsorted.ring.length : Int) ∧
        ∃ h, h ∈ ringUnsorted.ring ∧ ringAt ringUnsorted.ring (search ringUnsorted hash) = some h ∧
          ∀ key : GoString, hashKey key = hash →
            GetNode ringUnsorted key = some ((mapGet? ringUnsorted.Nodes h).getD zeroNode) :=
  ⟨by decide, search_index_in_range ringUnsorted (by decide)⟩

/-! ## More on Go maps -/

theorem mapSet_length_of_not_mem {K V : Type} [DecidableEq K] (m : List (K × V)) (k : K)
    (v : V) (h : k ∉ mapKeys m) : (mapSet m k v).length = m.length + 1 := by
  induction m with
  | nil => rfl
  | cons p m ih =>
    obtain ⟨k', v'⟩ := p
    simp only [mapKeys, List.map_cons, List.mem_cons, not_or] at h
    have hk : ¬ k' = k := fun e => h.1 e.symm
    simp only [mapSet, hk, if_false, List.length_cons, ih h.2]

theorem mem_mapSet {K V : Type} [DecidableEq K] (m : List (K × V)) (k : K) (v : V)
    (p : K × V) (h : p ∈ mapSet m k v) : p ∈ m ∨ p = (k, v) := by
  induction m with
  | nil => simpa [mapSet] using h
  | cons q m ih =>
    obtain ⟨k', v'⟩ := q
    by_cases hk : k' = k
    · simp only [mapSet, hk, if_true, List.mem_cons] at h
      rcases h with h | h
      · exact Or.inr h
      · exact Or.inl (List.mem_cons_of_mem _ h)
    · simp only [mapSet, hk, if_false, List.mem_cons] at h
      rcases h with h | h
      · exact Or.inl (h ▸ List.mem_cons_self _ _)
      · rcases ih h with h | h
        · exact Or.inl (List.mem_cons_of_mem _ h)
        · exact Or.inr h

theorem mem_mapDelete {K V : Type} [DecidableEq K] (m : List (K × V)) (k : K)
    (p : K × V) : p ∈ mapDelete m k ↔ p ∈ m ∧ p.1 ≠ k := by
  induction m with
  | nil => simp [mapDelete]
  | cons q m ih =>
    obtain ⟨k', v'⟩ := q
    by_cases hk : k' = k
    · simp only [mapDelete, hk, if_true, ih, List.mem_cons]
      constructor
      · rintro ⟨h1, h2⟩; exact ⟨Or.inr h1, h2⟩
      · rintro ⟨h1 | h1, h2⟩
        · rw [h1] at h2; exact absurd rfl h2
        · exact ⟨h1, h2⟩
    · simp only [mapDelete, hk, if_false, List.mem_cons, ih]
      constructor
      · rintro (h | ⟨h1, h2⟩)
        · rw [h]; exact ⟨Or.inl rfl, hk⟩
        · exact ⟨Or.inr h1, h2⟩
      · rintro ⟨h1 | h1, h2⟩
        · exact Or.inl h1
        · exact Or.inr ⟨h1, h2⟩

theorem mem_mapKeys_mapDelete {K V : Type} [DecidableEq K] (m : List (K × V)) (k a : K) :
    a ∈ mapKeys (mapDelete m k) ↔ a ∈ mapKeys m ∧ a ≠ k := by
  simp only [mapKeys, List.mem_map, mem_mapDelete]
  constructor
  · rintro ⟨p, ⟨hp, hne⟩, rfl⟩; exact ⟨⟨p, hp, rfl⟩, hne⟩
  · rintro ⟨⟨p, hp, rfl⟩, hne⟩; exact ⟨p, ⟨hp, hne⟩, rfl⟩

theorem mapGet?_mapSet {K V : Type} [DecidableEq K] (m : List (K × V)) (k : K) (v : V)
    (a : K) : mapGet? (mapSet m k v) a = if k = a then some v else mapGet? m a := by
  induction m with
  | nil => simp [mapSet, mapGet?]
  | cons q m ih =>
    obtain ⟨k', v'⟩ := q
    by_cases hk : k' = k
    · subst hk
      by_cases ha : k' = a <;> simp [mapSet, mapGet?, ha]
    · by_cases ha : k' = a
      · subst ha
        have hka : ¬ k = k' := fun e => hk e.symm
        simp [mapSet, mapGet?, hk, hka]
      · simp [mapSet, mapGet?, hk, ha, ih]

theorem foldl_mapSet_length (node : HashRingNode) (l : List Nat) :
    ∀ m : List (Nat × HashRingNode), l.Nodup → (∀ x ∈ l, x ∉ mapKeys m) →
      (l.foldl (fun m h => mapSet m h node) m).length = m.length + l.length := by
  induction l with
  | nil => intro m _ _; rfl
  | cons x l ih =>
    intro m hd hf
    rw [List.foldl_cons, ih (mapSet m x node) (List.nodup_cons.mp hd).2]
    · rw [mapSet_length_of_not_mem m x node (hf x (List.mem_cons_self _ _))]
      simp only [List.length_cons]
      omega
    · intro y hy hmem
      rcases (mem_mapKeys_mapSet m x node y).mp hmem with h | h
      · exact hf y (List.mem_cons_of_mem _ hy) h
      · exact (List.nodup_cons.mp hd).1 (h ▸ hy)

theorem mem_foldl_mapSet (node : HashRingNode) (l : List Nat) :
    ∀ (m : List (Nat × HashRingNode)) (p : Nat × HashRingNode),
      p ∈ l.foldl (fun m h => mapSet m h node) m → p ∈ m ∨ (p.2 = node ∧ p.1 ∈ l) := by
  induction l with
  | nil => intro m p h; exact Or.inl h
  | cons x l ih =>
    intro m p h
    rw [List.foldl_cons] at h
    rcases ih _ p h with h | ⟨h1, h2⟩
    · rcases mem_mapSet m x node p h with h | h
      · exact Or.inl h
      · exact Or.inr ⟨by rw [h], by rw [h]; exact List.mem_cons_self _ _⟩
    · exact Or.inr ⟨h1, List.mem_cons_of_mem _ h2⟩

theorem mem_foldl_mapDelete (l : List Nat) :
    ∀ (m : List (Nat × HashRingNode)) (p : Nat × HashRingNode),
      p ∈ l.foldl (fun m h => mapDelete m h) m → p ∈ m ∧ p.1 ∉ l := by
  induction l with
  | nil => intro m p h; exact ⟨h, List.not_mem_nil _⟩
  | cons x l ih =>
    intro m p h
    rw [List.foldl_cons] at h
    obtain ⟨h1, h2⟩ := ih _ p h
    obtain ⟨h3, h4⟩ := (mem_mapDelete m x p).mp h1
    refine ⟨h3, ?_⟩
    intro hmem
    rcases List.mem_cons.mp hmem with h | h
    · exact h4 h
    · exact h2 h

theorem mapGet?_foldl_mapSet (node : HashRingNode) (l : List Nat) :
    ∀ (m : List (Nat × HashRingNode)) (a : Nat),
      mapGet? (l.foldl (fun m h => mapSet m h node) m) a
        = if a ∈ l then some node else mapGet? m a := by
  induction l with
  | nil => intro m a; simp
  | cons x l ih =>
    intro m a
    rw [List.foldl_cons, ih, mapGet?_mapSet]
    by_cases hal : a ∈ l
    · simp [hal]
    · by_cases hx : x = a
      · simp [hx]
      · have hax : ¬ a = x := fun e => hx e.symm
        simp [hal, hx, hax]

theorem replicaHashes_length (node : HashRingNode) (reps : Nat) :
    (replicaHashes node reps).length = reps := by
  simp [replicaHashes]

/-! ## Claims about the size of the mapping -/

/-- C13 fails on the code: in the ring that holds `nodeA`, `AddNode` of node 2, not
registered and at the address, port and weight of `nodeA`, leaves the mapping at its 100
entries: the replica keys do not hold the Id, and each assignment `c.Nodes[hash] = *node`
writes over the entry of `nodeA`. -/
theorem AddNode_mapping_not_larger :
    Reachable ringA ∧ nodeA2.Id ∉ mapKeys ringA.resources ∧ ringA.reps = 100 ∧
      ringA.Nodes.length = 100 ∧ (AddNode ringA nodeA2).1.Nodes.length = 100 ∧
      (AddNode ringA nodeA2).1.Nodes.length ≠ ringA.Nodes.length + ringA.reps := by
  refine ⟨Reachable.add _ _ Reachable.new, ?_⟩
  simp only [ringA, AddNode_eq_eval]
  decide!

/-- C13 as amended: for every ring state with replica count `reps` and every node whose
Id is not registered, whose `reps` replica hashes are pairwise distinct and none of them a
key of the mapping yet, `AddNode` makes the mapping larger by exactly `reps` entries. -/
theorem AddNode_mapping_grows (c : ConsistentHashing) (node : HashRingNode)
    (h : node.Id ∉ mapKeys c.resources) (hd : (replicaHashes node c.reps).Nodup)
    (hf : ∀ x ∈ replicaHashes node c.reps, x ∉ mapKeys c.Nodes) :
    (AddNode c node).1.Nodes.length = c.Nodes.length + c.reps := by
  rw [AddNode_Nodes_of_absent c node (isSome_eq_false_of_not_mem _ _ h),
    foldl_mapSet_length node _ c.Nodes hd hf, replicaHashes_length]

/-- Witness of C13 as amended: `nodeA` on a new ring. -/
theorem AddNode_mapping_grows_witness :
    nodeA.Id ∉ mapKeys NewConsistentHashing.resources ∧
      (replicaHashes nodeA NewConsistentHashing.reps).Nodup ∧
      (AddNode NewConsistentHashing nodeA).1.Nodes.length
        = NewConsistentHashing.Nodes.length + NewConsistentHashing.reps :=
  have h : nodeA.Id ∉ mapKeys NewConsistentHashing.resources := by
    simp [NewConsistentHashing, mapKeys]
  have hd : (replicaHashes nodeA NewConsistentHashing.reps).Nodup := by decide!
  ⟨h, hd, AddNode_mapping_grows NewConsistentHashing nodeA h hd
    (by simp [NewConsistentHashing, mapKeys])⟩

/-! ## The mapping in tracked states -/

/-- In a tracked state the membership set holds the Ids of the registered nodes, no two
registered nodes share an Id, and every entry of the mapping holds a registered node
under one of its replica hashes. -/
theorem Tracked_invariant (c : ConsistentHashing) (reg : List HashRingNode)
    (h : Tracked c reg) :
    (∀ id : Int, id ∈ mapKeys c.resources ↔ ∃ n ∈ reg, n.Id = id) ∧
      (∀ n ∈ reg, ∀ m ∈ reg, n.Id = m.Id → n = m) ∧
      (∀ p ∈ c.Nodes, p.2 ∈ reg ∧ p.1 ∈ replicaHashes p.2 c.reps) := by
  induction h with
  | new =>
    refine ⟨?_, ?_, ?_⟩
    · intro id; simp [NewConsistentHashing, mapKeys]
    · intro n hn; simp at hn
    · intro p hp; simp [NewConsistentHashing] at hp
  | add c reg node _ hfresh ih =>
    obtain ⟨ha, hb, hc⟩ := ih
    have hs := isSome_eq_false_of_not_mem _ _ hfresh
    refine ⟨?_, ?_, ?_⟩
    · intro id
      rw [AddNode_resources_of_absent c node hs, mem_mapKeys_mapSet, ha id]
      constructor
      · rintro (⟨n, hn, e⟩ | e)
        · exact ⟨n, List.mem_cons_of_mem _ hn, e⟩
        · exact ⟨node, List.mem_cons_self _ _, e.symm⟩
      · rintro ⟨n, hn, e⟩
        rcases List.mem_cons.mp hn with hn | hn
        · right; rw [← e, hn]
        · exact Or.inl ⟨n, hn, e⟩
    · intro n hn m hm e
      rcases List.mem_cons.mp hn with hn | hn <;> rcases List.mem_cons.mp hm with hm | hm
      · rw [hn, hm]
      · exfalso
        apply hfresh
        rw [ha]
        exact ⟨m, hm, by rw [← e, hn]⟩
      · exfalso
        apply hfresh
        rw [ha]
        exact ⟨n, hn, by rw [e, hm]⟩
      · exact hb n hn m hm e
    · intro p hp
      rw [AddNode_Nodes_of_absent c node hs] at hp
      rw [AddNode_reps]
      rcases mem_foldl_mapSet node _ c.Nodes p hp with hp | ⟨h1, h2⟩
      · exact ⟨List.mem_cons_of_mem _ (hc p hp).1, (hc p hp).2⟩
      · rw [h1]
        exact ⟨List.mem_cons_self _ _, h2⟩
  | addAgain c reg node _ hdup ih =>
    rw [AddNode_of_present c node ((mapGet?_isSome_iff _ _).mpr hdup)]
    exact ih
  | remove c reg node _ hmem ih =>
    obtain ⟨ha, hb, hc⟩ := ih
    have hs : (mapGet? c.resources node.Id).isSome = true :=
      (mapGet?_isSome_iff _ _).mpr ((ha node.Id).mpr ⟨node, hmem, rfl⟩)
    refine ⟨?_, ?_, ?_⟩
    · intro id
      rw [RemoveNode_resources_of_present c node hs, mem_mapKeys_mapDelete, ha id]
      constructor
      · rintro ⟨⟨n, hn, e⟩, hne⟩
        refine ⟨n, List.mem_filter.mpr ⟨hn, ?_⟩, e⟩
        simpa [e] using hne
      · rintro ⟨n, hn, e⟩
        obtain ⟨hn1, hn2⟩ := List.mem_filter.mp hn
        refine ⟨⟨n, hn1, e⟩, ?_⟩
        simpa [e] using hn2
    · intro n hn m hm e
      exact hb n (List.mem_filter.mp hn).1 m (List.mem_filter.mp hm).1 e
    · intro p hp
      rw [RemoveNode_Nodes_of_present c node hs] at hp
      rw [RemoveNode_reps]
      obtain ⟨hp1, hp2⟩ := mem_foldl_mapDelete _ c.Nodes p hp
      refine ⟨List.mem_filter.mpr ⟨(hc p hp1).1, ?_⟩, (hc p hp1).2⟩
      simp only [ne_eq, decide_eq_true_eq]
      intro e
      have hnode : p.2 = node := hb p.2 (hc p hp1).1 node hmem e
      have hrep := (hc p hp1).2
      rw [hnode] at hrep
      exact hp2 hrep
  | removeUnknown c reg node _ hfresh ih =>
    rw [RemoveNode_of_absent c node (isSome_eq_false_of_not_mem _ _ hfresh)]
    exact ih

theorem scanById_cases (order : List (Nat × HashRingNode)) (id : Int) :
    (scanById order id = zeroNode ∧ ∀ p ∈ order, p.2.Id ≠ id) ∨
      ∃ p ∈ order, p.2.Id = id ∧ scanById order id = p.2 := by
  induction order with
  | nil => left; exact ⟨rfl, fun p hp => absurd hp (List.not_mem_nil _)⟩
  | cons q order ih =>
    obtain ⟨k, v⟩ := q
    by_cases hv : v.Id = id
    · right
      exact ⟨(k, v), List.mem_cons_self _ _, hv, by simp [scanById, hv]⟩
    · rcases ih with ⟨h1, h2⟩ | ⟨p, hp, h1, h2⟩
      · left
        refine ⟨by simp [scanById, hv, h1], ?_⟩
        intro p hp
        rcases List.mem_cons.mp hp with hp | hp
        · rw [hp]; exact hv
        · exact h2 p hp
      · right
        exact ⟨p, List.mem_cons_of_mem _ hp, h1, by simp [scanById, hv, h2]⟩

/-! ## Claims about `GetNodeById` -/

/-- C11 fails on the code: after `AddNode(nodeA)` a call of `RemoveNode` with Id 1 and
the address `10.0.0.9` takes Id 1 out of the membership set and deletes the hashes of
that other address, so the entries of `nodeA` stay and `GetNodeById(1)` returns
`nodeA`, not the zero-valued node. -/
theorem GetNodeById_finds_unregistered :
    Reachable (RemoveNode ringA nodeA9) ∧
      (1 : Int) ∉ mapKeys (RemoveNode ringA nodeA9).resources ∧
      (RemoveNode ringA nodeA9).Nodes.length = 100 ∧
      scanById (RemoveNode ringA nodeA9).Nodes 1 = nodeA ∧
      GetNodeById (RemoveNode ringA nodeA9) 1 nodeA ∧ nodeA ≠ zeroNode := by
  have h : (1 : Int) ∉ mapKeys (RemoveNode ringA nodeA9).resources ∧
      (RemoveNode ringA nodeA9).Nodes.length = 100 ∧
      scanById (RemoveNode ringA nodeA9).Nodes 1 = nodeA ∧ nodeA ≠ zeroNode := by
    simp only [ringA, AddNode_eq_eval, RemoveNode_eq_eval]
    decide!
  exact ⟨Reachable.remove _ _ (Reachable.add _ _ Reachable.new), h.1, h.2.1, h.2.2.1,
    ⟨_, List.Perm.refl _, h.2.2.1⟩, h.2.2.2⟩

/-- C11 as amended: in every state reached from the empty ring by `AddNode` and
`RemoveNode` calls in which each `RemoveNode` of a registered Id is given the address,
port and weight that Id was added with, for every id that is not in the membership set
`GetNodeById(id)` returns the zero-valued node, whatever the order of the scan. -/
theorem GetNodeById_unregistered (c : ConsistentHashing) (reg : List HashRingNode)
    (id : Int) (ht : Tracked c reg) (hid : id ∉ mapKeys c.resources) :
    GetNodeById c id zeroNode ∧ ∀ r : HashRingNode, GetNodeById c id r → r = zeroNode := by
  obtain ⟨ha, _, hc⟩ := Tracked_invariant c reg ht
  have hall : ∀ r : HashRingNode, GetNodeById c id r → r = zeroNode := by
    rintro r ⟨order, hperm, hscan⟩
    rcases scanById_cases order id with ⟨h1, _⟩ | ⟨p, hp, h1, _⟩
    · rw [← hscan, h1]
    · exfalso
      apply hid
      rw [ha]
      exact ⟨p.2, (hc p (hperm.subset hp)).1, h1⟩
  exact ⟨hall _ ⟨c.Nodes, List.Perm.refl _, rfl⟩ ▸ ⟨c.Nodes, List.Perm.refl _, rfl⟩, hall⟩

/-- Witness of C11 as amended: Id 2 in the ring that holds node 1. -/
theorem GetNodeById_unregistered_witness :
    Tracked ringA [nodeA] ∧ (2 : Int) ∉ mapKeys ringA.resources ∧
      (GetNodeById ringA 2 zeroNode ∧
        ∀ r : HashRingNode, GetNodeById ringA 2 r → r = zeroNode) :=
  have ht : Tracked ringA [nodeA] :=
    Tracked.add _ _ _ Tracked.new (by simp [NewConsistentHashing, mapKeys])
  have hid : (2 : Int) ∉ mapKeys ringA.resources := by
    simp only [ringA, AddNode_eq_eval]
    decide!
  ⟨ht, hid, GetNodeById_unregistered ringA [nodeA] 2 ht hid⟩

/-- C14 fails on the code: after `AddNode(nodeA)`, a `RemoveNode` with Id 1 and the
address `10.0.0.9`, and `AddNode` of node 1 at `10.0.0.9`, the mapping holds entries of
Id 1 with the address `10.0.0.1` and entries of Id 1 with the address `10.0.0.9`, and
`GetNodeById(1)` returns the one or the other with the order of the scan. -/
theorem Nodes_same_Id_other_data :
    Reachable (AddNode (RemoveNode ringA nodeA9) nodeA9).1 ∧
      (2604556093, nodeA) ∈ (AddNode (RemoveNode ringA nodeA9) nodeA9).1.Nodes ∧
      (2832273754, nodeA9) ∈ (AddNode (RemoveNode ringA nodeA9) nodeA9).1.Nodes ∧
      nodeA.Id = nodeA9.Id ∧ nodeA ≠ nodeA9 ∧
      GetNodeById (AddNode (RemoveNode ringA nodeA9) nodeA9).1 1 nodeA ∧
      GetNodeById (AddNode (RemoveNode ringA nodeA9) nodeA9).1 1 nodeA9 := by
  have h : (2604556093, nodeA) ∈ (AddNode (RemoveNode ringA nodeA9) nodeA9).1.Nodes ∧
      (2832273754, nodeA9) ∈ (AddNode (RemoveNode ringA nodeA9) nodeA9).1.Nodes ∧
      nodeA.Id = nodeA9.Id ∧ nodeA ≠ nodeA9 ∧
      scanById (AddNode (RemoveNode ringA nodeA9) nodeA9).1.Nodes 1 = nodeA ∧
      scanById (AddNode (RemoveNode ringA nodeA9) nodeA9).1.Nodes.reverse 1 = nodeA9 := by
    simp only [ringA, AddNode_eq_eval, RemoveNode_eq_eval]
    decide!
  exact ⟨Reachable.add _ _ (Reachable.remove _ _ (Reachable.add _ _ Reachable.new)),
    h.1, h.2.1, h.2.2.1, h.2.2.2.1, ⟨_, List.Perm.refl _, h.2.2.2.2.1⟩,
    ⟨_, List.reverse_perm _, h.2.2.2.2.2⟩⟩

/-- C14 as amended: in every state reached from the empty ring by `AddNode` and
`RemoveNode` calls in which each `RemoveNode` of a registered Id is given the address,
port and weight that Id was added with, any two entries of the mapping whose nodes have
the same Id hold identical node data, so the result of `GetNodeById` does not depend on
the order of the scan. -/
theorem Nodes_same_Id_same_data (c : ConsistentHashing) (reg : List HashRingNode)
    (ht : Tracked c reg) :
    (∀ p ∈ c.Nodes, ∀ q ∈ c.Nodes, p.2.Id = q.2.Id → p.2 = q.2) ∧
      ∀ (id : Int) (r1 r2 : HashRingNode),
        GetNodeById c id r1 → GetNodeById c id r2 → r1 = r2 := by
  obtain ⟨_, hb, hc⟩ := Tracked_invariant c reg ht
  have hsame : ∀ p ∈ c.Nodes, ∀ q ∈ c.Nodes, p.2.Id = q.2.Id → p.2 = q.2 :=
    fun p hp q hq e => hb p.2 (hc p hp).1 q.2 (hc q hq).1 e
  refine ⟨hsame, ?_⟩
  rintro id r1 r2 ⟨o1, hperm1, hscan1⟩ ⟨o2, hperm2, hscan2⟩
  rw [← hscan1, ← hscan2]
  rcases scanById_cases o1 id with ⟨h1, hn1⟩ | ⟨p, hp, hpid, h1⟩ <;>
    rcases scanById_cases o2 id with ⟨h2, hn2⟩ | ⟨q, hq, hqid, h2⟩
  · rw [h1, h2]
  · exact absurd hqid (hn1 q (hperm1.symm.subset (hperm2.subset hq)))
  · exact absurd hpid (hn2 p (hperm2.symm.subset (hperm1.subset hp)))
  · rw [h1, h2]
    exact hsame p (hperm1.subset hp) q (hperm2.subset hq) (hpid.trans hqid.symm)

/-- Witness of C14 as amended: the ring that holds node 1. -/
theorem Nodes_same_Id_same_data_witness :
    Tracked ringA [nodeA] ∧
      ((∀ p ∈ ringA.Nodes, ∀ q ∈ ringA.Nodes, p.2.Id = q.2.Id → p.2 = q.2) ∧
        ∀ (id : Int) (r1 r2 : HashRingNode),
          GetNodeById ringA id r1 → GetNodeById ringA id r2 → r1 = r2) :=
  have ht : Tracked ringA [nodeA] :=
    Tracked.add _ _ _ Tracked.new (by simp [NewConsistentHashing, mapKeys])
  ⟨ht, Nodes_same_Id_same_data ringA [nodeA] ht⟩

/-! ## Rings built by `AddNode` alone -/

theorem AddNode_ring_length_ge (c : ConsistentHashing) (node : HashRingNode) :
    c.ring.length ≤ (AddNode c node).1.ring.length := by
  by_cases hs : (mapGet? c.resources node.Id).isSome = true
  · rw [AddNode_of_present c node hs]
  · rw [Bool.not_eq_true] at hs
    rw [AddNode_ring_of_absent c node hs, Sort_length, List.length_append]
    omega

/-- One call of `AddNode` keeps every ring hash mapped to a node that was passed to
`AddNode` and whose Id is registered. -/
theorem AddNode_covered (c : ConsistentHashing) (node : HashRingNode)
    (nodes : List HashRingNode)
    (hinv : ∀ x ∈ c.ring, ∃ n, mapGet? c.Nodes x = some n ∧ n ∈ nodes ∧
      n.Id ∈ mapKeys c.resources) :
    ∀ x ∈ (AddNode c node).1.ring, ∃ n, mapGet? (AddNode c node).1.Nodes x = some n ∧
      n ∈ node :: nodes ∧ n.Id ∈ mapKeys (AddNode c node).1.resources := by
  by_cases hs : (mapGet? c.resources node.Id).isSome = true
  · rw [AddNode_of_present c node hs]
    intro x hx
    obtain ⟨n, h1, h2, h3⟩ := hinv x hx
    exact ⟨n, h1, List.mem_cons_of_mem _ h2, h3⟩
  · rw [Bool.not_eq_true] at hs
    intro x hx
    rw [AddNode_ring_of_absent c node hs] at hx
    rw [AddNode_Nodes_of_absent c node hs, AddNode_resources_of_absent c node hs,
      mapGet?_foldl_mapSet]
    by_cases hrep : x ∈ replicaHashes node c.reps
    · refine ⟨node, by simp [hrep], List.mem_cons_self _ _, ?_⟩
      exact (mem_mapKeys_mapSet _ _ _ _).mpr (Or.inr rfl)
    · have hold : x ∈ c.ring := by
        rcases List.mem_append.mp ((Sort_perm _).subset hx) with h | h
        · exact h
        · exact absurd h hrep
      obtain ⟨n, h1, h2, h3⟩ := hinv x hold
      refine ⟨n, by simp [hrep, h1], List.mem_cons_of_mem _ h2, ?_⟩
      exact (mem_mapKeys_mapSet _ _ _ _).mpr (Or.inl h3)

/-- In a ring built by `AddNode` alone the ring slice is not empty and every ring hash
is mapped to a node that was passed to `AddNode` and whose Id is registered. -/
theorem BuiltFrom_invariant (nodes : List HashRingNode) (c : ConsistentHashing)
    (h : BuiltFrom nodes c) :
    0 < c.ring.length ∧
      ∀ x ∈ c.ring, ∃ n, mapGet? c.Nodes x = some n ∧ n ∈ nodes ∧
        n.Id ∈ mapKeys c.resources := by
  induction h with
  | first node =>
    constructor
    · have hs : (mapGet? NewConsistentHashing.resources node.Id).isSome = false := rfl
      rw [AddNode_ring_of_absent _ node hs, Sort_length, List.length_append,
        replicaHashes_length]
      show 0 < 0 + 100
      omega
    · exact AddNode_covered NewConsistentHashing node []
        (fun x hx => absurd hx (List.not_mem_nil _))
  | add nodes c node _ ih =>
    exact ⟨Nat.lt_of_lt_of_le ih.1 (AddNode_ring_length_ge c node),
      AddNode_covered c node nodes ih.2⟩

/-! ## Claim about rings built by `AddNode` alone -/

/-- C20: in every state reached from `NewConsistentHashing` by one or more `AddNode`
calls and no `RemoveNode` call, every hash in the ring slice has a mapping entry whose
node Id is in the membership set, and `GetNode(key)` returns for every key a node that
was passed to `AddNode` and whose Id is registered. -/
theorem GetNode_registered_when_built (nodes : List HashRingNode) (c : ConsistentHashing)
    (h : BuiltFrom nodes c) :
    (∀ x ∈ c.ring, ∃ n, mapGet? c.Nodes x = some n ∧ n ∈ nodes ∧
        n.Id ∈ mapKeys c.resources) ∧
      ∀ key : GoString, ∃ n, GetNode c key = some n ∧ n ∈ nodes ∧
        n.Id ∈ mapKeys c.resources := by
  obtain ⟨hpos, hinv⟩ := BuiltFrom_invariant nodes c h
  refine ⟨hinv, ?_⟩
  intro key
  have hne : c.ring ≠ [] := List.length_pos.mp hpos
  obtain ⟨h0, h1⟩ := search_range c (hashKey key) hne
  obtain ⟨x, hat, hmem⟩ := ringAt_of_range c.ring _ h0 h1
  obtain ⟨n, hn1, hn2, hn3⟩ := hinv x hmem
  exact ⟨n, by simp only [GetNode, hat, hn1, Option.getD_some], hn2, hn3⟩

/-- Witness of C20: the ring after `AddNode(nodeA)` and `AddNode(nodeB)`. -/
theorem GetNode_registered_when_built_witness :
    BuiltFrom [nodeB, nodeA] ringAB ∧
      ((∀ x ∈ ringAB.ring, ∃ n, mapGet? ringAB.Nodes x = some n ∧ n ∈ [nodeB, nodeA] ∧
          n.Id ∈ mapKeys ringAB.resources) ∧
        ∀ key : GoString, ∃ n, GetNode ringAB key = some n ∧ n ∈ [nodeB, nodeA] ∧
          n.Id ∈ mapKeys ringAB.resources) :=
  have h : BuiltFrom [nodeB, nodeA] ringAB := BuiltFrom.add _ _ _ (BuiltFrom.first _)
  ⟨h, GetNode_registered_when_built [nodeB, nodeA] ringAB h⟩

end utils
